import Mathlib

/-!
# Verification of the AIRDyAssess assessment pipeline

Shallow embedding of the core of the AIRDyAssess repository
(`models.py`, `engine.py`, `pipeline.py`, `config.py`) and proofs of the
spec claims about it.

Python strings are modelled as `List Char`; Python floats that only ever
hold decimal score values are modelled as `ℚ`; Python `round(x, 1)`
(round half to even) is modelled exactly on `ℚ`.
-/

namespace AIRDy

/-! ## Python string primitives (`List Char` model) -/

/-- Python whitespace predicate (`str.strip` / `str.split` whitespace set). -/
def isWS (c : Char) : Bool :=
  c = ' ' || c = '\t' || c = '\n' || c = '\r' || c = '\x0b' || c = '\x0c'

/-- Leading-whitespace removal, as in Python `str.lstrip()`. -/
def lstrip (s : List Char) : List Char := s.dropWhile isWS

/-- Trailing-whitespace removal, as in Python `str.rstrip()`. -/
def rstrip (s : List Char) : List Char := (s.reverse.dropWhile isWS).reverse

/-- Python `str.strip()`: remove whitespace from both ends. -/
def strip (s : List Char) : List Char := rstrip (lstrip s)

/-- Python `str.split()` (no separator): split on runs of whitespace,
discarding empty pieces.  `acc` holds the current word reversed. -/
def pySplitAux : List Char → List Char → List (List Char)
  | [], acc => if acc = [] then [] else [acc.reverse]
  | c :: rest, acc =>
    if isWS c then
      if acc = [] then pySplitAux rest [] else acc.reverse :: pySplitAux rest []
    else pySplitAux rest (c :: acc)

/-- Python `str.split()` with no argument. -/
def pySplit (s : List Char) : List (List Char) := pySplitAux s []

/-! ## `models.py` -/

/-- The five maturity levels of `models.MATURITY_LEVELS`, in insertion
order: `(lo, hi) ↦ (label, color, description)`. -/
def MATURITY_LEVELS : List ((ℚ × ℚ) × String × String × String) :=
  [ ((0, 2), ("Nascent", "red", "AI adoption has not meaningfully begun.")),
    ((2, 4), ("Emerging", "orange", "Early experiments underway; significant gaps remain.")),
    ((4, 6), ("Developing", "yellow", "Foundation in place; scaling requires targeted investment.")),
    ((6, 8), ("Advanced", "green", "Strong capability; focus on optimisation and expansion.")),
    ((8, 101/10), ("Leading", "blue", "Industry-leading AI capability; focus on innovation.")) ]

/-- The lookup loop of `models.get_maturity`: first bucket with
`lo ≤ score < hi` wins; fallback `("Nascent", "red", "")`. -/
def get_maturityGo : List ((ℚ × ℚ) × String × String × String) → ℚ → String × String × String
  | [], _ => ("Nascent", "red", "")
  | (b, v) :: rest, s => if b.1 ≤ s ∧ s < b.2 then v else get_maturityGo rest s

/-- `models.get_maturity`. -/
def get_maturity (score : ℚ) : String × String × String :=
  get_maturityGo MATURITY_LEVELS score

/-! ## Python `round(x, 1)` -/

/-- Round a rational to the nearest integer, ties to even
(the rounding Python's `round` uses). -/
def roundHalfEven (q : ℚ) : ℤ :=
  let f : ℤ := ⌊q⌋
  let r : ℚ := q - f
  if r < 1/2 then f
  else if (1:ℚ)/2 < r then f + 1
  else if f % 2 = 0 then f else f + 1

/-- Python `round(x, 1)` on exact decimal values. -/
def round1 (q : ℚ) : ℚ := (roundHalfEven (q * 10) : ℚ) / 10

/-! ## `engine.py`: dimension scoring and overall score -/

/-- The score/label fields produced by `AssessmentEngine.assess_dimension`
(engine.py 224–239): maturity label and color are computed from the
*unrounded* parsed score, while the stored score is rounded to one
decimal (`score=round(score, 1)`). -/
structure DimensionScoreCore where
  score : ℚ
  maturity_level : String
  maturity_color : String
deriving DecidableEq

def assess_dimension_core (parsed_score : ℚ) : DimensionScoreCore :=
  let m := get_maturity parsed_score
  ⟨round1 parsed_score, m.1, m.2.1⟩

/-- The overall fields computed by `AssessmentEngine.run_full_assessment`
(engine.py 393–395): equal-weight mean of the dimension scores rounded to
one decimal, and the maturity derived from that rounded mean. -/
structure ReportOverall where
  overall_score : ℚ
  overall_maturity : String
  overall_maturity_color : String
deriving DecidableEq

def run_full_assessment_overall (dimension_scores : List ℚ) : ReportOverall :=
  let overall_score := round1 (dimension_scores.sum / dimension_scores.length)
  let m := get_maturity overall_score
  ⟨overall_score, m.1, m.2.1⟩

/-! ## Bucket lemmas for `get_maturity` -/

lemma get_maturity_nascent {s : ℚ} (h0 : 0 ≤ s) (h : s < 2) :
    get_maturity s = ("Nascent", "red", "AI adoption has not meaningfully begun.") := by
  simp only [get_maturity, MATURITY_LEVELS, get_maturityGo]
  rw [if_pos ⟨h0, h⟩]

lemma get_maturity_emerging {s : ℚ} (h1 : 2 ≤ s) (h : s < 4) :
    get_maturity s = ("Emerging", "orange", "Early experiments underway; significant gaps remain.") := by
  simp only [get_maturity, MATURITY_LEVELS, get_maturityGo]
  rw [if_neg (by push_neg; intro _; linarith), if_pos ⟨h1, h⟩]

lemma get_maturity_developing {s : ℚ} (h1 : 4 ≤ s) (h : s < 6) :
    get_maturity s = ("Developing", "yellow", "Foundation in place; scaling requires targeted investment.") := by
  simp only [get_maturity, MATURITY_LEVELS, get_maturityGo]
  rw [if_neg (by push_neg; intro _; linarith), if_neg (by push_neg; intro _; linarith),
    if_pos ⟨h1, h⟩]

lemma get_maturity_advanced {s : ℚ} (h1 : 6 ≤ s) (h : s < 8) :
    get_maturity s = ("Advanced", "green", "Strong capability; focus on optimisation and expansion.") := by
  simp only [get_maturity, MATURITY_LEVELS, get_maturityGo]
  rw [if_neg (by push_neg; intro _; linarith), if_neg (by push_neg; intro _; linarith),
    if_neg (by push_neg; intro _; linarith), if_pos ⟨h1, h⟩]

lemma get_maturity_leading {s : ℚ} (h1 : 8 ≤ s) (h : s < 101/10) :
    get_maturity s = ("Leading", "blue", "Industry-leading AI capability; focus on innovation.") := by
  simp only [get_maturity, MATURITY_LEVELS, get_maturityGo]
  rw [if_neg (by push_neg; intro _; linarith), if_neg (by push_neg; intro _; linarith),
    if_neg (by push_neg; intro _; linarith), if_neg (by push_neg; intro _; linarith),
    if_pos ⟨h1, h⟩]

/-! ## Claim theorems C1–C3 -/

/-- C1: for every score `s ∈ [0, 10]`, `get_maturity` returns exactly one
of the five labels, with buckets closed on the left and open on the
right (`[0,2)` Nascent, `[2,4)` Emerging, `[4,6)` Developing, `[6,8)`
Advanced) except the top bucket, which contains `10.0`. -/
theorem get_maturity_partition (s : ℚ) (h0 : 0 ≤ s) (h10 : s ≤ 10) :
    (get_maturity s).1 =
      (if s < 2 then "Nascent" else if s < 4 then "Emerging"
        else if s < 6 then "Developing" else if s < 8 then "Advanced" else "Leading") ∧
    (get_maturity s).1 ∈ ["Nascent", "Emerging", "Developing", "Advanced", "Leading"] := by
  have main : (get_maturity s).1 =
      (if s < 2 then "Nascent" else if s < 4 then "Emerging"
        else if s < 6 then "Developing" else if s < 8 then "Advanced" else "Leading") := by
    rcases lt_or_le s 2 with h | h
    · rw [get_maturity_nascent h0 h, if_pos h]
    · rcases lt_or_le s 4 with h' | h'
      · rw [get_maturity_emerging h h', if_neg (by linarith), if_pos h']
      · rcases lt_or_le s 6 with h'' | h''
        · rw [get_maturity_developing h' h'', if_neg (by linarith), if_neg (by linarith),
            if_pos h'']
        · rcases lt_or_le s 8 with h''' | h'''
          · rw [get_maturity_advanced h'' h''', if_neg (by linarith), if_neg (by linarith),
              if_neg (by linarith), if_pos h''']
          · rw [get_maturity_leading h''' (by linarith), if_neg (by linarith),
              if_neg (by linarith), if_neg (by linarith), if_neg (by linarith)]
  refine ⟨main, ?_⟩
  rw [main]
  split_ifs <;> simp

/-- Witness for C1 at `s = 10`: the top bucket contains `10.0`. -/
theorem get_maturity_partition_witness :
    (0:ℚ) ≤ 10 ∧ (10:ℚ) ≤ 10 ∧ (get_maturity 10).1 = "Leading" := by
  have h := (get_maturity_partition 10 (by norm_num) le_rfl).1
  norm_num at h
  exact ⟨by norm_num, le_rfl, h⟩

/-- C2: the orchestrator's overall score is the equal-weight mean of the
dimension scores rounded to one decimal, with the maturity derived from
the rounded mean; for scores `[2, 4, 6, 8, 10, 5]` this gives `5.8` and
`"Developing"`. -/
theorem run_full_assessment_overall_spec :
    (∀ ds : List ℚ,
      (run_full_assessment_overall ds).overall_score = round1 (ds.sum / ds.length) ∧
      (run_full_assessment_overall ds).overall_maturity =
        (get_maturity (round1 (ds.sum / ds.length))).1) ∧
    (run_full_assessment_overall [2, 4, 6, 8, 10, 5]).overall_score = 5.8 ∧
    (run_full_assessment_overall [2, 4, 6, 8, 10, 5]).overall_maturity = "Developing" := by
  refine ⟨fun ds => ⟨rfl, rfl⟩, ?_, ?_⟩
  · show round1 ((2 + (4 + (6 + (8 + (10 + (5 + 0)))))) / 6 : ℚ) = 5.8
    norm_num [round1, roundHalfEven]
  · show (get_maturity (round1 ((2 + (4 + (6 + (8 + (10 + (5 + 0)))))) / 6 : ℚ))).1 = "Developing"
    have hr : round1 ((2 + (4 + (6 + (8 + (10 + (5 + 0)))))) / 6 : ℚ) = 29/5 := by
      norm_num [round1, roundHalfEven]
    rw [hr, get_maturity_developing (by norm_num) (by norm_num)]

/-- C3 counterexample: for the parsed score `3.96` the stored maturity
label (`"Emerging"`, computed before rounding) differs from the label the
partition assigns to the stored rounded score `4.0` (`"Developing"`). -/
theorem assess_dimension_label_mismatch_at_396 :
    (assess_dimension_core (396/100)).maturity_level ≠
      (get_maturity ((assess_dimension_core (396/100)).score)).1 := by
  have h1 : (assess_dimension_core (396/100)).maturity_level = "Emerging" := by
    show (get_maturity (396/100)).1 = "Emerging"
    rw [get_maturity_emerging (by norm_num) (by norm_num)]
  have hs : (assess_dimension_core (396/100)).score = 4 := by
    show round1 (396/100) = 4
    norm_num [round1, roundHalfEven]
  rw [h1, hs, get_maturity_developing (by norm_num) (by norm_num)]
  decide

/-- C3 amended: the stored maturity label is the one the partition assigns
to the *parsed (unrounded)* score; it agrees with the label of the stored
rounded score whenever the parsed score is already at one-decimal
precision (`round1 q = q`). -/
theorem assess_dimension_label_from_parsed (q : ℚ) :
    (assess_dimension_core q).maturity_level = (get_maturity q).1 ∧
    (round1 q = q →
      (assess_dimension_core q).maturity_level =
        (get_maturity ((assess_dimension_core q).score)).1) := by
  refine ⟨rfl, fun h => ?_⟩
  show (get_maturity q).1 = (get_maturity (round1 q)).1
  rw [h]

/-- Witness for C3's amended theorem at the one-decimal score `3.5`. -/
theorem assess_dimension_label_from_parsed_witness :
    round1 (7/2) = 7/2 ∧
    (assess_dimension_core (7/2)).maturity_level =
      (get_maturity ((assess_dimension_core (7/2)).score)).1 := by
  have hr : round1 ((7:ℚ)/2) = 7/2 := by norm_num [round1, roundHalfEven]
  exact ⟨hr, (assess_dimension_label_from_parsed (7/2)).2 hr⟩

/-! ## `engine.py`: use-case identification (C4) -/

/-- A parsed use-case object from the generation service's JSON array.
Fields read with `uc[...]` in `identify_use_cases` are required; the two
read with `uc.get(...)` are optional. -/
structure UseCaseObj where
  title : String
  description : String
  business_process : String
  ai_approach : String
  estimated_complexity : String
  estimated_roi_impact : String
  prerequisites : Option (List String) := none
  priority_rank : Option ℤ := none
deriving DecidableEq

/-- `models.UseCaseCandidate`. -/
structure UseCaseCandidate where
  title : String
  description : String
  business_process : String
  ai_approach : String
  estimated_complexity : String
  estimated_roi_impact : String
  prerequisites : List String
  priority_rank : ℤ
deriving DecidableEq

/-- The sort key of `sorted(use_cases, key=lambda x: x.priority_rank)`. -/
def rankLE (a b : UseCaseCandidate) : Prop := a.priority_rank ≤ b.priority_rank

instance : DecidableRel rankLE := fun a b =>
  inferInstanceAs (Decidable (a.priority_rank ≤ b.priority_rank))

instance : IsTotal UseCaseCandidate rankLE := ⟨fun a b => le_total a.priority_rank b.priority_rank⟩

instance : IsTrans UseCaseCandidate rankLE := ⟨fun _ _ _ h1 h2 => le_trans h1 h2⟩

/-- `AssessmentEngine.identify_use_cases` (engine.py 268–284): truncate
the parsed array to 5, default a missing `priority_rank` to the
1-based position, and stable-sort by `priority_rank` (Python's `sorted`
is stable; `List.insertionSort` with `≤` is the same stable sort). -/
def identify_use_cases (parsed : List UseCaseObj) : List UseCaseCandidate :=
  let use_cases := (parsed.take 5).enum.map (fun p =>
    { title := p.2.title
      description := p.2.description
      business_process := p.2.business_process
      ai_approach := p.2.ai_approach
      estimated_complexity := p.2.estimated_complexity
      estimated_roi_impact := p.2.estimated_roi_impact
      prerequisites := p.2.prerequisites.getD []
      priority_rank := p.2.priority_rank.getD ((p.1 : ℤ) + 1) })
  use_cases.insertionSort rankLE

/-- A service response object carrying an explicit `priority_rank`. -/
def ucObjRank (t : String) (r : ℤ) : UseCaseObj :=
  { title := t, description := "d", business_process := "bp", ai_approach := "RAG",
    estimated_complexity := "Low", estimated_roi_impact := "High",
    priority_rank := some r }

/-- A service response object with no `priority_rank`. -/
def ucObjNoRank (t : String) : UseCaseObj :=
  { title := t, description := "d", business_process := "bp", ai_approach := "RAG",
    estimated_complexity := "Low", estimated_roi_impact := "High" }

/-- C4 counterexample: when the service returns only two objects, both
ranked 3, the identifier returns two candidates (not five) with
duplicate ranks `[3, 3]`. -/
theorem identify_use_cases_cex :
    (identify_use_cases [ucObjRank "a" 3, ucObjRank "b" 3]).length = 2 ∧
    (identify_use_cases [ucObjRank "a" 3, ucObjRank "b" 3]).map
      (fun c => c.priority_rank) = [3, 3] := by
  constructor <;> rfl

/-- The rank sequence `1..k` as integers. -/
def rankSeq (k : ℕ) : List ℤ := (List.range k).map (fun i : ℕ => (i : ℤ) + 1)

lemma rankSeq_pairwise (k : ℕ) : List.Pairwise (· ≤ ·) (rankSeq k) := by
  refine List.Pairwise.map _ (fun a b h => ?_) (List.pairwise_lt_range k)
  have hab : (a : ℤ) < (b : ℤ) := by exact_mod_cast h
  linarith

/-- C4 amended: the identifier returns `min 5 n` candidates sorted
ascending by `priority_rank` (truncating when the service returns more
than 5, re-deriving a missing rank from the response position); the
ranks are exactly `1..min 5 n` when every rank is missing. -/
theorem identify_use_cases_amended (parsed : List UseCaseObj) :
    (identify_use_cases parsed).length = min 5 parsed.length ∧
    List.Sorted rankLE (identify_use_cases parsed) ∧
    ((∀ u ∈ parsed, u.priority_rank = none) →
      (identify_use_cases parsed).map (fun c => c.priority_rank) =
        rankSeq (min 5 parsed.length)) := by
  refine ⟨?_, List.sorted_insertionSort rankLE _, fun hnone => ?_⟩
  · simp [identify_use_cases]
  · set f : ℕ × UseCaseObj → UseCaseCandidate := fun p =>
      { title := p.2.title
        description := p.2.description
        business_process := p.2.business_process
        ai_approach := p.2.ai_approach
        estimated_complexity := p.2.estimated_complexity
        estimated_roi_impact := p.2.estimated_roi_impact
        prerequisites := p.2.prerequisites.getD []
        priority_rank := p.2.priority_rank.getD ((p.1 : ℤ) + 1) } with hf
    have hmem : ∀ p ∈ (parsed.take 5).enum, (f p).priority_rank = (p.1 : ℤ) + 1 := by
      intro p hp
      have h2 : p.2 ∈ parsed.take 5 := List.snd_mem_of_mem_enum hp
      have hp2 : p.2.priority_rank = none := hnone _ (List.mem_of_mem_take h2)
      simp [hf, hp2]
    have hmap : ((parsed.take 5).enum.map f).map (fun c => c.priority_rank) =
        rankSeq (min 5 parsed.length) := by
      rw [List.map_map]
      have hcongr : ((parsed.take 5).enum).map ((fun c => c.priority_rank) ∘ f) =
          ((parsed.take 5).enum).map ((fun i : ℕ => (i : ℤ) + 1) ∘ Prod.fst) :=
        List.map_congr_left (fun p hp => hmem p hp)
      rw [hcongr, ← List.map_map, List.enum_map_fst, List.length_take]
      rfl
    have hsorted : List.Sorted rankLE ((parsed.take 5).enum.map f) := by
      have hpw : List.Pairwise (· ≤ ·)
          (((parsed.take 5).enum.map f).map (fun c => c.priority_rank)) := by
        rw [hmap]; exact rankSeq_pairwise _
      exact List.Pairwise.of_map (fun c => c.priority_rank) (fun a b h => h) hpw
    have hunf : identify_use_cases parsed =
        ((parsed.take 5).enum.map f).insertionSort rankLE := by
      rw [hf]; rfl
    rw [hunf, hsorted.insertionSort_eq, hmap]

/-- Witness for C4's amended theorem: two rank-less objects come back as
two candidates ranked `[1, 2]`. -/
theorem identify_use_cases_amended_witness :
    (identify_use_cases [ucObjNoRank "a", ucObjNoRank "b"]).length = 2 ∧
    (identify_use_cases [ucObjNoRank "a", ucObjNoRank "b"]).map
      (fun c => c.priority_rank) = [1, 2] := by
  have h := identify_use_cases_amended [ucObjNoRank "a", ucObjNoRank "b"]
  refine ⟨by simpa using h.1, ?_⟩
  have h3 := h.2.2 (by intro u hu; fin_cases hu <;> rfl)
  simpa [rankSeq, List.range_succ] using h3

/-! ## `engine.py`: roadmap building (C9) -/

/-- A parsed phase object from the generation service's JSON array:
`p["phase"]`, `p["title"]`, `p["timeline"]` are required, the list
fields are read with `p.get(..., [])`. -/
structure PhaseObj where
  phase : ℤ
  title : String
  timeline : String
  focus_areas : Option (List String) := none
  key_initiatives : Option (List String) := none
  success_metrics : Option (List String) := none
  dependencies : Option (List String) := none
deriving DecidableEq

/-- `models.RoadmapPhase`. -/
structure RoadmapPhase where
  phase : ℤ
  title : String
  timeline : String
  focus_areas : List String
  key_initiatives : List String
  success_metrics : List String
  dependencies : List String
deriving DecidableEq

/-- `AssessmentEngine.build_roadmap` (engine.py 349–363): one
`RoadmapPhase` per parsed object, phase numbers passed through verbatim,
no count or numbering enforcement. -/
def build_roadmap (parsed : List PhaseObj) : List RoadmapPhase :=
  parsed.map (fun p =>
    { phase := p.phase
      title := p.title
      timeline := p.timeline
      focus_areas := p.focus_areas.getD []
      key_initiatives := p.key_initiatives.getD []
      success_metrics := p.success_metrics.getD []
      dependencies := p.dependencies.getD [] })

/-- A phase object with a given phase number. -/
def phObj (n : ℤ) : PhaseObj := { phase := n, title := "t", timeline := "Months 1-3" }

/-- C9 counterexample: a parsed response with a single object numbered 5
yields one phase numbered 5 — not three phases numbered {1,2,3}. -/
theorem build_roadmap_cex :
    (build_roadmap [phObj 5]).length = 1 ∧
    (build_roadmap [phObj 5]).map (fun p => p.phase) = [5] := by
  constructor <;> rfl

/-- C9 amended: the roadmap builder mirrors the parsed response — one
phase per object with the phase number passed through verbatim; the
output is numbered exactly 1,2,3 iff the service response is (the {1,2,3}
constraint lives in the prompt, not in code). -/
theorem build_roadmap_amended (parsed : List PhaseObj) :
    (build_roadmap parsed).length = parsed.length ∧
    (build_roadmap parsed).map (fun p => p.phase) = parsed.map (fun p => p.phase) ∧
    (parsed.map (fun p => p.phase) = [1, 2, 3] →
      (build_roadmap parsed).map (fun p => p.phase) = [1, 2, 3]) := by
  refine ⟨List.length_map _ _, ?_, fun h => ?_⟩
  · rw [build_roadmap, List.map_map]; rfl
  · rw [build_roadmap, List.map_map]; exact h

/-- Witness for C9's amended theorem on a conforming 3-phase response. -/
theorem build_roadmap_amended_witness :
    (build_roadmap [phObj 1, phObj 2, phObj 3]).map (fun p => p.phase) = [1, 2, 3] :=
  (build_roadmap_amended [phObj 1, phObj 2, phObj 3]).2.2 rfl

/-! ## `pipeline.py`: `extract_document` routing (C7)

The only exception type `pipeline.py` ever raises itself is the Python
builtin `ValueError` (there is no `UnsupportedFormatError` or
`ExtractionError` class anywhere in the repository). -/

/-- The Python exceptions raised by the ingestion code: only the generic
builtin `ValueError`, with a message. -/
inductive PyExc where
  | valueError (msg : String)
deriving DecidableEq

/-- Which extractor `extract_document` routes to. -/
inductive ExtractorKind where
  | pdf
  | docx
  | txt
deriving DecidableEq

/-- Python `str.lower()` on ASCII extensions, char by char. -/
def pyLower (s : String) : String := ⟨s.data.map Char.toLower⟩

/-- The routing of `extract_document` (pipeline.py 99–109) on the
lowercased file suffix (`path.suffix.lower()`). -/
def extract_document_route (suffix : String) : Except PyExc ExtractorKind :=
  let s := pyLower suffix
  if s = ".pdf" then .ok .pdf
  else if s = ".docx" ∨ s = ".doc" then .ok .docx
  else if s = ".txt" ∨ s = ".md" then .ok .txt
  else .error (.valueError ("Unsupported file type: " ++ s ++ ". Supported: pdf, docx, txt, md"))

/-- The `except` wrapper of `extract_pdf` (pipeline.py 58–59): a parse
failure is re-raised as a generic `ValueError` whose message embeds the
filename and the underlying cause. -/
def extract_pdf_wrap (filename : String) (result : Except String ExtractorKind) :
    Except PyExc ExtractorKind :=
  match result with
  | .ok x => .ok x
  | .error e => .error (.valueError ("Failed to extract PDF " ++ filename ++ ": " ++ e))

/-- C7 counterexample: for the unsupported extension `.xlsx` (the very
case the repository's own test expects to raise `ValueError`),
`extract_document` fails with the *generic* builtin `ValueError` — there
is no dedicated `UnsupportedFormatError` type — refuting "never a
generic error". -/
theorem extract_document_route_cex :
    extract_document_route ".xlsx" =
      .error (.valueError "Unsupported file type: .xlsx. Supported: pdf, docx, txt, md") := by
  rfl

/-- C7 amended: an unsupported extension fails with a generic
`ValueError` whose message carries the offending (lowercased) extension,
and a parse failure of a recognized format fails with a generic
`ValueError` whose message wraps the underlying cause. -/
theorem extract_document_route_amended (suffix filename cause : String)
    (h : pyLower suffix ∉ [".pdf", ".docx", ".doc", ".txt", ".md"]) :
    extract_document_route suffix =
      .error (.valueError ("Unsupported file type: " ++ pyLower suffix ++
        ". Supported: pdf, docx, txt, md")) ∧
    extract_pdf_wrap filename (.error cause) =
      .error (.valueError ("Failed to extract PDF " ++ filename ++ ": " ++ cause)) := by
  simp only [List.mem_cons, List.not_mem_nil, or_false, not_or] at h
  obtain ⟨h1, h2, h3, h4, h5⟩ := h
  refine ⟨?_, rfl⟩
  simp only [extract_document_route]
  rw [if_neg h1, if_neg (not_or.mpr ⟨h2, h3⟩), if_neg (not_or.mpr ⟨h4, h5⟩)]

/-- Witness for C7's amended theorem at extension `.XLSX` (uppercase, to
exercise the lowercasing). -/
theorem extract_document_route_amended_witness :
    extract_document_route ".XLSX" =
      .error (.valueError "Unsupported file type: .xlsx. Supported: pdf, docx, txt, md") ∧
    extract_pdf_wrap "f.pdf" (.error "bad xref") =
      .error (.valueError "Failed to extract PDF f.pdf: bad xref") := by
  have h := extract_document_route_amended ".XLSX" "f.pdf" "bad xref" (by decide)
  exact ⟨h.1, h.2⟩

/-! ## `engine.py`: `_retrieve_evidence` (C8) -/

/-- `config.Settings.top_k_retrieval` (config.py line 23), the default
`n_results` of `search_documents`. -/
def top_k_retrieval : ℕ := 8

/-- One result of `search_documents`: `{content, source, distance}`
(distance plays no role in evidence formatting). -/
structure SearchResult where
  content : List Char
  source : List Char
deriving DecidableEq

/-- The sentinel returned when retrieval produced nothing. -/
def no_evidence_sentinel : List Char :=
  "No specific evidence found for this dimension.".toList

/-- The per-result formatting of `_retrieve_evidence`:
`f"[Source: {r['source']}]\n{r['content'][:600]}"`. -/
def format_excerpt (r : SearchResult) : List Char :=
  "[Source: ".toList ++ r.source ++ "]\n".toList ++ r.content.take 600

/-- The excerpts `_retrieve_evidence` formats: the first 6 results only
(`for r in results[:6]`). -/
def evidence_excerpts (results : List SearchResult) : List (List Char) :=
  (results.take 6).map format_excerpt

/-- The separator `"\n\n---\n\n"` joining the excerpts. -/
def evidence_sep : List Char := "\n\n---\n\n".toList

/-- `AssessmentEngine._retrieve_evidence` (engine.py 183–191), applied to
the results returned by `search_documents`. -/
def retrieve_evidence (results : List SearchResult) : List Char :=
  if results = [] then no_evidence_sentinel
  else List.intercalate evidence_sep (evidence_excerpts results)

/-- An eight-result retrieval outcome (the default `top_k_retrieval`). -/
def res8 : List SearchResult :=
  [⟨"c1".toList, "s1".toList⟩, ⟨"c2".toList, "s2".toList⟩, ⟨"c3".toList, "s3".toList⟩,
   ⟨"c4".toList, "s4".toList⟩, ⟨"c5".toList, "s5".toList⟩, ⟨"c6".toList, "s6".toList⟩,
   ⟨"c7".toList, "s7".toList⟩, ⟨"c8".toList, "s8".toList⟩]

/-- C8 counterexample: retrieval returns `top_k_retrieval = 8` results,
but the evidence block only contains the first 6 excerpts — the block is
capped at 6, not at the configurable top-N. -/
theorem retrieve_evidence_cex :
    top_k_retrieval = 8 ∧ res8.length = 8 ∧
    (evidence_excerpts res8).length = 6 ∧
    retrieve_evidence res8 = List.intercalate evidence_sep (evidence_excerpts res8) := by
  refine ⟨rfl, rfl, rfl, rfl⟩

/-- C8 amended: the evidence block joins the first `min 6 n` retrieved
chunks (not top-N = 8) with the visible separator, each with source
attribution and content truncated to at most 600 characters; empty
retrieval yields the non-empty "no evidence" sentinel. -/
theorem retrieve_evidence_amended (results : List SearchResult) (h : results ≠ []) :
    retrieve_evidence results = List.intercalate evidence_sep (evidence_excerpts results) ∧
    (evidence_excerpts results).length = min 6 results.length ∧
    (∀ r ∈ results, (r.content.take 600).length ≤ 600) ∧
    retrieve_evidence [] = no_evidence_sentinel ∧ no_evidence_sentinel ≠ [] := by
  refine ⟨?_, ?_, ?_, rfl, by decide⟩
  · simp only [retrieve_evidence, if_neg h]
  · simp [evidence_excerpts]
  · intro r _
    exact le_trans (le_of_eq (List.length_take 600 r.content)) (min_le_left 600 _)

/-- Witness for C8's amended theorem on a one-result retrieval. -/
theorem retrieve_evidence_amended_witness :
    retrieve_evidence [⟨"content".toList, "doc.txt".toList⟩] =
      List.intercalate evidence_sep (evidence_excerpts [⟨"content".toList, "doc.txt".toList⟩]) ∧
    (evidence_excerpts [⟨"content".toList, "doc.txt".toList⟩]).length = 1 := by
  have h := retrieve_evidence_amended [⟨"content".toList, "doc.txt".toList⟩] (by decide)
  exact ⟨h.1, by rw [h.2.1]; rfl⟩

/-! ## Lemma kit for `strip` and `pySplit` -/

lemma dropWhile_head_false {α : Type} {p : α → Bool} :
    ∀ (l : List α) (c : α), (l.dropWhile p).head? = some c → p c = false := by
  intro l
  induction l with
  | nil => intro c h; simp at h
  | cons a t ih =>
    intro c h
    by_cases hp : p a
    · rw [List.dropWhile_cons, if_pos hp] at h
      exact ih c h
    · rw [List.dropWhile_cons, if_neg hp] at h
      simp only [List.head?_cons, Option.some.injEq] at h
      subst h
      exact Bool.eq_false_iff.mpr hp

lemma head?_eq_of_pref {α : Type} {l1 l2 : List α} (h : l1 <+: l2) (hne : l1 ≠ []) :
    l2.head? = l1.head? := by
  obtain ⟨t, rfl⟩ := h
  cases l1 with
  | nil => exact absurd rfl hne
  | cons a s => rfl

lemma head?_append_left {α : Type} {l1 : List α} (l2 : List α) (h : l1 ≠ []) :
    (l1 ++ l2).head? = l1.head? := by
  cases l1 with
  | nil => exact absurd rfl h
  | cons a s => rfl

lemma lstrip_head_false (s : List Char) (c : Char) (h : (lstrip s).head? = some c) :
    isWS c = false := dropWhile_head_false s c h

lemma rstrip_getLast_false (s : List Char) (c : Char) (h : (rstrip s).getLast? = some c) :
    isWS c = false := by
  rw [rstrip, List.getLast?_reverse] at h
  exact dropWhile_head_false s.reverse c h

lemma rstrip_pref (s : List Char) : rstrip s <+: s := by
  have h := List.dropWhile_suffix (l := s.reverse) isWS
  have h2 := List.reverse_prefix.mpr h
  rwa [List.reverse_reverse] at h2

lemma strip_head_false (s : List Char) (c : Char) (h : (strip s).head? = some c) :
    isWS c = false := by
  by_cases hne : strip s = []
  · rw [hne] at h; simp at h
  · have he : (lstrip s).head? = (strip s).head? := head?_eq_of_pref (rstrip_pref _) hne
    exact lstrip_head_false s c (by rw [he, h])

lemma strip_getLast_false (s : List Char) (c : Char) (h : (strip s).getLast? = some c) :
    isWS c = false := rstrip_getLast_false (lstrip s) c h

lemma lstrip_of_head_false {c : Char} {t : List Char} (h : isWS c = false) :
    lstrip (c :: t) = c :: t := by
  rw [lstrip, List.dropWhile_cons, if_neg (by simp [h])]

lemma rstrip_of_last_false {c : Char} (s : List Char) (h : isWS c = false) :
    rstrip (s ++ [c]) = s ++ [c] := by
  rw [rstrip, List.reverse_append]
  simp only [List.reverse_cons, List.reverse_nil, List.nil_append, List.singleton_append]
  rw [List.dropWhile_cons, if_neg (by simp [h])]
  simp

lemma strip_eq_self {s : List Char}
    (h1 : ∀ c, s.head? = some c → isWS c = false)
    (h2 : ∀ c, s.getLast? = some c → isWS c = false) : strip s = s := by
  cases s with
  | nil => rfl
  | cons a t =>
    have ha : isWS a = false := h1 a rfl
    rw [strip, lstrip_of_head_false ha]
    rcases List.eq_nil_or_concat (a :: t) with he | ⟨l', d, he⟩
    · simp at he
    · rw [List.concat_eq_append] at he
      have hd : isWS d = false := by
        apply h2
        rw [he]
        exact List.getLast?_concat l'
      rw [he, rstrip_of_last_false _ hd]

lemma strip_idem (s : List Char) : strip (strip s) = strip s :=
  strip_eq_self (strip_head_false s) (strip_getLast_false s)

lemma lstrip_append_ws {w : List Char} (s : List Char) (hw : ∀ c ∈ w, isWS c = true) :
    lstrip (w ++ s) = lstrip s := by
  induction w with
  | nil => rfl
  | cons a t ih =>
    have ha := hw a (List.mem_cons_self a t)
    show (a :: (t ++ s)).dropWhile isWS = lstrip s
    rw [List.dropWhile_cons, if_pos (by simp [ha])]
    exact ih (fun c hc => hw c (List.mem_cons_of_mem a hc))

lemma strip_append_ws {w : List Char} (s : List Char) (hw : ∀ c ∈ w, isWS c = true) :
    strip (w ++ s) = strip s := by
  rw [strip, lstrip_append_ws s hw]
  rfl

lemma pySplitAux_words : ∀ (s acc : List Char), (∀ c ∈ acc, isWS c = false) →
    ∀ w ∈ pySplitAux s acc, w ≠ [] ∧ ∀ c ∈ w, isWS c = false := by
  intro s
  induction s with
  | nil =>
    intro acc hacc w hw
    by_cases h : acc = []
    · simp [pySplitAux, h] at hw
    · simp only [pySplitAux, if_neg h, List.mem_singleton] at hw
      subst hw
      exact ⟨by simpa using h, fun c hc => hacc c (List.mem_reverse.mp hc)⟩
  | cons c rest ih =>
    intro acc hacc w hw
    rw [pySplitAux] at hw
    by_cases hws : isWS c
    · rw [if_pos hws] at hw
      by_cases ha : acc = []
      · rw [if_pos ha] at hw
        exact ih [] (by simp) w hw
      · rw [if_neg ha] at hw
        rcases List.mem_cons.mp hw with rfl | hw'
        · exact ⟨by simpa using ha, fun d hd => hacc d (List.mem_reverse.mp hd)⟩
        · exact ih [] (by simp) w hw'
    · rw [if_neg hws] at hw
      refine ih (c :: acc) ?_ w hw
      intro d hd
      rcases List.mem_cons.mp hd with rfl | hd'
      · exact Bool.eq_false_iff.mpr hws
      · exact hacc d hd'

lemma pySplit_words (s : List Char) : ∀ w ∈ pySplit s, w ≠ [] ∧ ∀ c ∈ w, isWS c = false :=
  pySplitAux_words s [] (by simp)

/-! ## `engine.py`: `_parse_json` (C10) -/

/-- The markdown fence marker. -/
def fence : List Char := "```".toList

/-- The text normalization `AssessmentEngine._parse_json` (engine.py
173–181) applies before `json.loads`: strip, drop the first line when the
text starts with the fence marker, drop the last line when it ends with
the fence marker, strip again.  Python's `text.split("\n")` /
`"\n".join(...)` pair is `splitOn` at newline / `intercalate` with a
newline. -/
def parse_json_pre (s : List Char) : List Char :=
  let t := strip s
  let t1 := if fence.isPrefixOf t then
      List.intercalate ['\n'] ((t.splitOn '\n').drop 1) else t
  let t2 := if fence.isSuffixOf t1 then
      List.intercalate ['\n'] ((t1.splitOn '\n').dropLast) else t1
  strip t2

/-- `AssessmentEngine._parse_json`, with `json.loads` abstracted as an
arbitrary function `loads` of the normalized text. -/
def parse_json {α : Type} (loads : List Char → α) (s : List Char) : α :=
  loads (parse_json_pre s)

lemma modifyHead_append {α : Type} (f : α → α) (l l' : List α) (h : l ≠ []) :
    (l ++ l').modifyHead f = l.modifyHead f ++ l' := by
  cases l with
  | nil => exact absurd rfl h
  | cons a t => simp

lemma splitOn_append_sep {α : Type} [DecidableEq α] (x : α) :
    ∀ (a b : List α), (a ++ x :: b).splitOn x = a.splitOn x ++ b.splitOn x := by
  intro a
  induction a with
  | nil =>
    intro b
    show (x :: b).splitOnP (· == x) = [].splitOnP (· == x) ++ b.splitOnP (· == x)
    rw [List.splitOnP_cons, if_pos (by simp), List.splitOnP_nil]
    rfl
  | cons c a ih =>
    intro b
    show (c :: (a ++ x :: b)).splitOnP (· == x) =
      (c :: a).splitOnP (· == x) ++ b.splitOnP (· == x)
    by_cases h : c = x
    · rw [List.splitOnP_cons, List.splitOnP_cons, if_pos (by simp [h]), if_pos (by simp [h])]
      rw [show (a ++ x :: b).splitOnP (· == x) =
        a.splitOnP (· == x) ++ b.splitOnP (· == x) from ih b]
      rfl
    · rw [List.splitOnP_cons, List.splitOnP_cons, if_neg (by simp [h]), if_neg (by simp [h])]
      rw [show (a ++ x :: b).splitOnP (· == x) =
        a.splitOnP (· == x) ++ b.splitOnP (· == x) from ih b]
      exact modifyHead_append _ _ _ (List.splitOnP_ne_nil _ a)

lemma fence_chars : ∀ c ∈ fence, isWS c = false := by decide

lemma fence_ne_nil : fence ≠ [] := by decide

lemma fence_no_nl : ∀ c ∈ fence, ¬((c == '\n') = true) := by decide

/-- The fence-free branch: when the stripped text neither starts nor ends
with the fence marker, the normalization is just `strip`. -/
lemma parse_json_pre_plain (j : List Char)
    (hb1 : ¬ fence <+: strip j) (hb2 : ¬ fence <:+ strip j) :
    parse_json_pre j = strip j := by
  simp only [parse_json_pre]
  rw [if_neg (fun hc => hb1 (List.isPrefixOf_iff_prefix.mp hc)),
    if_neg (fun hc => hb2 (List.isSuffixOf_iff_suffix.mp hc)),
    strip_idem]

lemma parse_json_pre_fenced (fenceLine j : List Char)
    (hpre : fence <+: fenceLine) (hnl : '\n' ∉ fenceLine)
    (hb1 : ¬ fence <+: strip j) (hb2 : ¬ fence <:+ strip j) :
    parse_json_pre (fenceLine ++ '\n' :: (j ++ '\n' :: fence)) = parse_json_pre j := by
  rw [parse_json_pre_plain j hb1 hb2]
  have hfl_ne : fenceLine ≠ [] := by
    intro he
    rw [he] at hpre
    exact fence_ne_nil (List.prefix_nil.mp hpre)
  have hstrip : strip (fenceLine ++ '\n' :: (j ++ '\n' :: fence)) =
      fenceLine ++ '\n' :: (j ++ '\n' :: fence) := by
    apply strip_eq_self
    · intro c hc
      rw [head?_append_left _ hfl_ne, head?_eq_of_pref hpre fence_ne_nil] at hc
      exact fence_chars c (List.mem_of_mem_head? (by rw [hc]; rfl))
    · intro c hc
      have hw : fenceLine ++ '\n' :: (j ++ '\n' :: fence) =
          (fenceLine ++ ('\n' :: j) ++ ['\n']) ++ fence := by simp
      rw [hw, List.getLast?_append_of_ne_nil _ fence_ne_nil] at hc
      exact fence_chars c (List.mem_of_mem_getLast? (by rw [hc]; rfl))
  simp only [parse_json_pre]
  rw [hstrip]
  have hp1 : fence.isPrefixOf (fenceLine ++ '\n' :: (j ++ '\n' :: fence)) = true :=
    List.isPrefixOf_iff_prefix.mpr (hpre.trans (List.prefix_append _ _))
  rw [if_pos hp1]
  have hsplit1 : (fenceLine ++ '\n' :: (j ++ '\n' :: fence)).splitOn '\n' =
      fenceLine :: (j ++ '\n' :: fence).splitOn '\n' := by
    show (fenceLine ++ '\n' :: (j ++ '\n' :: fence)).splitOnP (· == '\n') =
      fenceLine :: (j ++ '\n' :: fence).splitOnP (· == '\n')
    exact List.splitOnP_first (· == '\n') fenceLine
      (fun x hx hbeq => hnl (eq_of_beq hbeq ▸ hx)) '\n' (by simp) _
  rw [hsplit1]
  simp only [List.drop_succ_cons, List.drop_zero]
  rw [List.intercalate_splitOn]
  have hp2 : fence.isSuffixOf (j ++ '\n' :: fence) = true :=
    List.isSuffixOf_iff_suffix.mpr ⟨j ++ ['\n'], by simp⟩
  rw [if_pos hp2]
  have hsplit2 : (j ++ '\n' :: fence).splitOn '\n' = j.splitOn '\n' ++ [fence] := by
    rw [splitOn_append_sep]
    rw [show List.splitOn '\n' fence = [fence] from rfl]
  rw [hsplit2, List.dropLast_concat, List.intercalate_splitOn]

/-- C10: the response parser strips a leading markdown fence line (any
first line starting with the fence marker) and the trailing fence line
before JSON-parsing, so a generation-service response consisting of JSON
wrapped in markdown code fences parses to the same value as the bare
JSON text, for any parse function of the normalized text. -/
theorem parse_json_strips_markdown_fences {α : Type} (loads : List Char → α)
    (fenceLine j : List Char)
    (hpre : fence <+: fenceLine) (hnl : '\n' ∉ fenceLine)
    (hb1 : ¬ fence <+: strip j) (hb2 : ¬ fence <:+ strip j) :
    parse_json loads (fenceLine ++ '\n' :: (j ++ '\n' :: fence)) = parse_json loads j :=
  congrArg loads (parse_json_pre_fenced fenceLine j hpre hnl hb1 hb2)

/-- Witness for C10 on a concrete fenced JSON response. -/
theorem parse_json_strips_markdown_fences_witness :
    parse_json id ("```json".toList ++ '\n' :: ("\x7b\"score\": 5\x7d".toList ++ '\n' :: fence)) =
      parse_json id "\x7b\"score\": 5\x7d".toList :=
  parse_json_strips_markdown_fences id "```json".toList "\x7b\"score\": 5\x7d".toList
    (by decide) (by decide) (by decide) (by decide)

/-! ## `pipeline.py`: `chunk_text` (C5, C6) -/

/-- `re.split` on two-or-more newlines (the pattern used by
`chunk_text`): pieces are separated by maximal runs of at least two
newline characters.  `acc` is the current piece reversed; `nl` counts
newlines just read and not yet classified as separator or content. -/
def splitParasGo : List Char → List Char → ℕ → List (List Char)
  | [], acc, nl =>
    if 2 ≤ nl then [acc.reverse, []]
    else [(List.replicate nl '\n' ++ acc).reverse]
  | c :: rest, acc, nl =>
    if c = '\n' then splitParasGo rest acc (nl + 1)
    else if 2 ≤ nl then acc.reverse :: splitParasGo rest [c] 0
    else splitParasGo rest (c :: (List.replicate nl '\n' ++ acc)) 0

def splitParas (text : List Char) : List (List Char) := splitParasGo text [] 0

/-- The paragraph list of `chunk_text`:
`[p.strip() for p in re.split(r'\n\n+', text) if p.strip()]`. -/
def parasOf (text : List Char) : List (List Char) :=
  ((splitParas text).map strip).filter (fun p => !p.isEmpty)

/-- The two newlines of the paragraph joiner `f"{current}\n\n{para}"`. -/
def nl2 : List Char := ['\n', '\n']

/-- The inner word-packing loop of `chunk_text` (pipeline.py 142–151),
run when a single paragraph exceeds `chunk_size`.  Returns the chunk
list with the flushed sub-chunks appended, and the final `sub`. -/
def wordLoop (chunk_size : ℕ) : List (List Char) → List (List Char) → List Char →
    List (List Char) × List Char
  | [], chunks, sub => (chunks, sub)
  | w :: ws, chunks, sub =>
    if sub.length + w.length + 1 ≤ chunk_size then
      wordLoop chunk_size ws chunks (strip (sub ++ ' ' :: w))
    else
      wordLoop chunk_size ws (if sub = [] then chunks else chunks ++ [sub]) w

/-- The paragraph-packing loop of `chunk_text` (pipeline.py 134–154).
State: accumulated chunk list and the running buffer `current`. -/
def paraLoop (chunk_size : ℕ) : List (List Char) → List (List Char) → List Char →
    List (List Char) × List Char
  | [], chunks, current => (chunks, current)
  | p :: ps, chunks, current =>
    if current.length + p.length ≤ chunk_size then
      paraLoop chunk_size ps chunks (strip (current ++ nl2 ++ p))
    else
      let chunks1 := if current = [] then chunks else chunks ++ [current]
      if chunk_size < p.length then
        let r := wordLoop chunk_size (pySplit p) chunks1 []
        paraLoop chunk_size ps r.1 (if r.2 = [] then current else r.2)
      else
        paraLoop chunk_size ps chunks1 p

/-- The pre-overlap chunk list of `chunk_text`: the local `chunks` after
the paragraph loop plus the final `if current: chunks.append(current)`.
These are the chunks before the overlap prefix is injected — the "core
content" of the produced chunks. -/
def chunkCoreChunks (chunk_size : ℕ) (text : List Char) : List (List Char) :=
  let r := paraLoop chunk_size (parasOf text) [] []
  if r.2 = [] then r.1 else r.1 ++ [r.2]

/-- Python `s[-k:]` for `k ≥ 0` (the whole list when `k = 0`). -/
def pySliceLast (k : ℕ) (s : List Char) : List Char :=
  if k = 0 then s else s.drop (s.length - k)

/-- The overlap-injection pass (pipeline.py 159–167): each chunk after
the first is prefixed with the trailing `chunk_overlap` characters of
the previous *pre-overlap* chunk (the whole previous chunk when it is
not longer than the overlap) and a joining newline. -/
def addOverlapGo (chunk_overlap : ℕ) : List Char → List (List Char) → List (List Char)
  | _, [] => []
  | prev, c :: cs =>
    ((if chunk_overlap < prev.length then pySliceLast chunk_overlap prev else prev)
      ++ '\n' :: c) :: addOverlapGo chunk_overlap c cs

def addOverlap (chunk_overlap : ℕ) : List (List Char) → List (List Char)
  | [] => []
  | c :: cs => c :: addOverlapGo chunk_overlap c cs

/-- `chunk_size or settings.chunk_size`: Python `or` replaces both
`None` and `0` by the default. -/
def resolveSetting (v : Option ℕ) (dflt : ℕ) : ℕ :=
  match v with
  | none => dflt
  | some n => if n = 0 then dflt else n

/-- `chunk_text(text, chunk_size, chunk_overlap)` (pipeline.py 116–168),
with `settings.chunk_size = 1000` and `settings.chunk_overlap = 150`
(config.py). -/
def chunk_text (text : List Char) (chunk_size chunk_overlap : Option ℕ) : List (List Char) :=
  addOverlap (resolveSetting chunk_overlap 150)
    (chunkCoreChunks (resolveSetting chunk_size 1000) text)

/-! ## C5: `chunk_text` on short input -/

lemma strip_length_le (s : List Char) : (strip s).length ≤ s.length :=
  le_trans (rstrip_pref (lstrip s)).length_le (List.dropWhile_suffix isWS).length_le

lemma intercalate_nil_pieces (sep : List Char) :
    List.intercalate sep ([] : List (List Char)) = [] := by
  simp [List.intercalate]

lemma intercalate_singleton_piece (sep a : List Char) : List.intercalate sep [a] = a := by
  simp [List.intercalate]

lemma intercalate_cons_cons (sep a b : List Char) (l : List (List Char)) :
    List.intercalate sep (a :: b :: l) = a ++ sep ++ List.intercalate sep (b :: l) := by
  simp [List.intercalate, List.intersperse]

lemma intercalate_head_ne_nil {a : List Char} (sep : List Char) (l : List (List Char))
    (ha : a ≠ []) : List.intercalate sep (a :: l) ≠ [] := by
  cases l with
  | nil => rw [intercalate_singleton_piece]; exact ha
  | cons b l' =>
    rw [intercalate_cons_cons]
    simp [ha]

/-- Size accounting for the paragraph splitter: total piece length plus
twice the piece count is bounded by the input length plus 2 (each
separator is at least two characters). -/
lemma splitParasGo_size : ∀ (cs : List Char) (acc : List Char) (nl : ℕ),
    ((splitParasGo cs acc nl).map List.length).sum + 2 * (splitParasGo cs acc nl).length
      ≤ cs.length + acc.length + nl + 2 := by
  intro cs
  induction cs with
  | nil =>
    intro acc nl
    by_cases h : 2 ≤ nl
    · simp only [splitParasGo, if_pos h]
      simp
      omega
    · simp only [splitParasGo, if_neg h]
      simp
  | cons c rest ih =>
    intro acc nl
    by_cases hc : c = '\n'
    · simp only [splitParasGo, if_pos hc]
      have := ih acc (nl + 1)
      simpa [Nat.add_assoc, Nat.add_comm, Nat.add_left_comm] using this
    · by_cases h2 : 2 ≤ nl
      · simp only [splitParasGo, if_neg hc, if_pos h2]
        have := ih [c] 0
        simp only [List.map_cons, List.sum_cons, List.length_cons, List.length_reverse]
        simp only [List.length_cons, List.length_nil] at this
        omega
      · simp only [splitParasGo, if_neg hc, if_neg h2]
        have := ih (c :: (List.replicate nl '\n' ++ acc)) 0
        simp only [List.length_cons, List.length_append, List.length_replicate] at this
        simp only [List.length_cons]
        omega

lemma splitParas_size (text : List Char) :
    ((splitParas text).map List.length).sum + 2 * (splitParas text).length
      ≤ text.length + 2 := by
  have := splitParasGo_size text [] 0
  simpa [splitParas] using this

lemma parasOf_size (text : List Char) :
    ((parasOf text).map List.length).sum + 2 * (parasOf text).length
      ≤ text.length + 2 := by
  refine le_trans ?_ (splitParas_size text)
  rw [parasOf]
  generalize splitParas text = pieces
  induction pieces with
  | nil => simp
  | cons p ps ih =>
    simp only [List.map_cons, List.filter_cons, List.sum_cons, List.length_cons]
    by_cases h : (strip p).isEmpty
    · rw [if_neg (by simp [h])]
      have hp : (0:ℕ) ≤ p.length := Nat.zero_le _
      omega
    · rw [if_pos (by simp [h])]
      simp only [List.map_cons, List.sum_cons, List.length_cons]
      have hs := strip_length_le p
      omega

lemma parasOf_mem (text : List Char) : ∀ p ∈ parasOf text, p ≠ [] ∧ strip p = p := by
  intro p hp
  rw [parasOf] at hp
  have h1 := (List.mem_filter.mp hp).1
  have h2 := (List.mem_filter.mp hp).2
  obtain ⟨q, _, rfl⟩ := List.mem_map.mp h1
  refine ⟨?_, strip_idem q⟩
  intro he
  rw [he] at h2
  simp at h2

/-- The paragraph-packing loop when nothing ever overflows: no chunk is
flushed and `current` ends as the `"\n\n"`-join of the paragraphs. -/
lemma paraLoop_pack (cs : ℕ) : ∀ (paras : List (List Char)) (chunks : List (List Char))
    (current : List Char),
    (∀ p ∈ paras, p ≠ [] ∧ strip p = p) →
    strip current = current →
    current.length + (((paras.map List.length).sum) + 2 * paras.length) ≤ cs + 2 →
    paraLoop cs paras chunks current =
      (chunks, List.intercalate nl2 (if current = [] then paras else current :: paras)) := by
  intro paras
  induction paras with
  | nil =>
    intro chunks current _ _ _
    by_cases hc : current = []
    · simp [paraLoop, hc, intercalate_nil_pieces]
    · simp [paraLoop, hc, intercalate_singleton_piece]
  | cons p ps ih =>
    intro chunks current hpara hcur harith
    have hp := hpara p (List.mem_cons_self p ps)
    have hfit : current.length + p.length ≤ cs := by
      simp only [List.map_cons, List.sum_cons, List.length_cons] at harith
      omega
    simp only [paraLoop, if_pos hfit]
    by_cases hc : current = []
    · subst hc
      have hjoin : strip ([] ++ nl2 ++ p) = p := by
        rw [List.nil_append, strip_append_ws p (by decide)]
        exact hp.2
      rw [hjoin]
      rw [ih chunks p (fun q hq => hpara q (List.mem_cons_of_mem p hq)) hp.2 ?_]
      · rw [if_neg hp.1, if_pos rfl]
      · simp only [List.map_cons, List.sum_cons, List.length_cons] at harith
        simp only [List.length_nil] at harith
        omega
    · have hjoin : strip (current ++ nl2 ++ p) = current ++ nl2 ++ p := by
        apply strip_eq_self
        · intro d hd
          rw [List.append_assoc, head?_append_left _ hc] at hd
          exact strip_head_false current d (by rw [hcur, hd])
        · intro d hd
          rw [List.getLast?_append_of_ne_nil _ hp.1] at hd
          exact strip_getLast_false p d (by rw [hp.2, hd])
      rw [hjoin]
      rw [ih chunks (current ++ nl2 ++ p)
        (fun q hq => hpara q (List.mem_cons_of_mem p hq)) (by rw [← hjoin, strip_idem, hjoin]) ?_]
      · have hne : current ++ nl2 ++ p ≠ [] := by simp [hc]
        rw [if_neg hne, if_neg hc]
        cases ps with
        | nil =>
          rw [intercalate_singleton_piece, intercalate_cons_cons, intercalate_singleton_piece]
        | cons q ps' =>
          rw [intercalate_cons_cons, intercalate_cons_cons, intercalate_cons_cons]
          simp [List.append_assoc]
      · simp only [List.map_cons, List.sum_cons, List.length_cons] at harith ⊢
        simp only [List.length_append, nl2, List.length_cons, List.length_nil]
        omega

/-- C5 counterexample: for the input `"a\n\n\nb"` (a three-newline
paragraph separator), text shorter than `chunk_size` yields a single
chunk, but that chunk is the paragraphs re-joined with exactly two
newlines — not the trimmed input. -/
theorem chunk_text_short_not_trimmed_cex :
    "a\n\n\nb".toList.length < 1000 ∧
    chunk_text "a\n\n\nb".toList (some 1000) (some 150) ≠ [strip "a\n\n\nb".toList] := by
  decide

/-- C5 amended: for text shorter than `chunk_size`, `chunk_text` returns
a single chunk equal to the stripped paragraphs of the input re-joined
with `"\n\n"` (which equals the trimmed input exactly when the input's
paragraph separators are already two newlines and paragraphs carry no
surrounding whitespace), and the empty sequence when the input has no
non-empty paragraph; empty input yields the empty sequence for every
`chunk_size` and `chunk_overlap`. -/
theorem chunk_text_short_single (text : List Char) (cs : ℕ) (ov : Option ℕ)
    (h : text.length < cs) :
    chunk_text text (some cs) ov =
      (if parasOf text = [] then [] else [List.intercalate nl2 (parasOf text)]) ∧
    (∀ cso ovo : Option ℕ, chunk_text [] cso ovo = []) := by
  refine ⟨?_, fun _ _ => rfl⟩
  have hcs0 : cs ≠ 0 := by omega
  have hres : resolveSetting (some cs) 1000 = cs := by simp [resolveSetting, hcs0]
  rw [chunk_text, hres]
  have harith : (0:ℕ) + (((parasOf text).map List.length).sum + 2 * (parasOf text).length)
      ≤ cs + 2 := by
    have := parasOf_size text
    omega
  have hloop := paraLoop_pack cs (parasOf text) [] [] (parasOf_mem text) rfl
    (by simpa using harith)
  rw [if_pos rfl] at hloop
  simp only [chunkCoreChunks, hloop]
  cases hparas : parasOf text with
  | nil =>
    rw [if_pos rfl]
    simp [intercalate_nil_pieces, addOverlap]
  | cons p ps =>
    have hmem : p ∈ parasOf text := by rw [hparas]; exact List.mem_cons_self p ps
    have hne : List.intercalate nl2 (p :: ps) ≠ [] :=
      intercalate_head_ne_nil nl2 ps (parasOf_mem text p hmem).1
    rw [if_neg hne, if_neg (by simp)]
    rfl

/-- Witness for C5's amended theorem on a short single-paragraph text. -/
theorem chunk_text_short_single_witness :
    chunk_text "hello world".toList (some 100) (some 10) = ["hello world".toList] := by
  have h := (chunk_text_short_single "hello world".toList 100 (some 10) (by decide)).1
  rw [h]
  decide

/-! ## C6: core-chunk size bound and word-boundary sub-splitting -/

/-- All words of the input, paragraph by paragraph (the words the inner
sub-split loop of `chunk_text` ever sees). -/
def inputWords (text : List Char) : List (List Char) :=
  ((parasOf text).map pySplit).flatten

/-- The length of the longest word of the input (0 if none). -/
def maxWordLen (text : List Char) : ℕ :=
  ((inputWords text).map List.length).foldr max 0

/-- `" ".join` of a word group: the value `sub` holds after chaining
`f"{sub} {word}"` over the words of the group. -/
def joinSp : List (List Char) → List Char
  | [] => []
  | [w] => w
  | w :: g => w ++ ' ' :: joinSp g

lemma le_foldr_max {l : List ℕ} {a : ℕ} (h : a ∈ l) : a ≤ l.foldr max 0 := by
  induction l with
  | nil => cases h
  | cons b t ih =>
    simp only [List.foldr_cons]
    rcases List.mem_cons.mp h with rfl | h'
    · exact le_max_left _ _
    · exact le_trans (ih h') (le_max_right _ _)

lemma maxWordLen_bound (text : List Char) :
    ∀ p ∈ parasOf text, ∀ w ∈ pySplit p, w.length ≤ maxWordLen text := by
  intro p hp w hw
  apply le_foldr_max
  exact List.mem_map_of_mem _
    (List.mem_flatten.mpr ⟨pySplit p, List.mem_map_of_mem _ hp, hw⟩)

/-- Size invariant for the word-packing loop: flushed sub-chunks never
exceed `B` and the running `sub` never exceeds `max chunk_size W`, where
`W` bounds every word length. -/
lemma wordLoop_bound (cs W B : ℕ) (hWB : max cs W ≤ B) :
    ∀ (ws chunks : List (List Char)) (sub : List Char),
    (∀ w ∈ ws, w.length ≤ W) →
    sub.length ≤ max cs W →
    (∀ c ∈ chunks, c.length ≤ B) →
    (∀ c ∈ (wordLoop cs ws chunks sub).1, c.length ≤ B) ∧
    (wordLoop cs ws chunks sub).2.length ≤ max cs W := by
  intro ws
  induction ws with
  | nil =>
    intro chunks sub _ hsub hch
    exact ⟨hch, hsub⟩
  | cons w ws ih =>
    intro chunks sub hws hsub hch
    simp only [wordLoop]
    by_cases hfit : sub.length + w.length + 1 ≤ cs
    · rw [if_pos hfit]
      refine ih chunks _ (fun x hx => hws x (List.mem_cons_of_mem w hx)) ?_ hch
      calc (strip (sub ++ ' ' :: w)).length ≤ (sub ++ ' ' :: w).length := strip_length_le _
        _ = sub.length + (w.length + 1) := by simp
        _ ≤ cs := by omega
        _ ≤ max cs W := le_max_left _ _
    · rw [if_neg hfit]
      refine ih _ w (fun x hx => hws x (List.mem_cons_of_mem w hx))
        (le_trans (hws w (List.mem_cons_self w ws)) (le_max_right cs W)) ?_
      intro c hc
      by_cases hs : sub = []
      · rw [if_pos hs] at hc
        exact hch c hc
      · rw [if_neg hs] at hc
        rcases List.mem_append.mp hc with h' | h'
        · exact hch c h'
        · rw [List.mem_singleton] at h'
          subst h'
          exact le_trans hsub hWB

/-- Size invariant for the paragraph-packing loop: every flushed chunk
is at most `chunk_size + max 2 W` long and `current` is at most
`max (chunk_size + 2) (max chunk_size W)` long. -/
lemma paraLoop_bound (cs W : ℕ) :
    ∀ (paras chunks : List (List Char)) (current : List Char),
    (∀ p ∈ paras, ∀ w ∈ pySplit p, w.length ≤ W) →
    (∀ c ∈ chunks, c.length ≤ cs + max 2 W) →
    current.length ≤ max (cs + 2) (max cs W) →
    (∀ c ∈ (paraLoop cs paras chunks current).1, c.length ≤ cs + max 2 W) ∧
    (paraLoop cs paras chunks current).2.length ≤ max (cs + 2) (max cs W) := by
  have hMB : max (cs + 2) (max cs W) ≤ cs + max 2 W := by
    apply max_le
    · exact Nat.add_le_add_left (le_max_left 2 W) cs
    · exact max_le (Nat.le_add_right cs _ |>.trans (Nat.add_le_add_left (Nat.zero_le _) cs))
        (le_trans (le_max_right 2 W) (Nat.le_add_left _ cs))
  intro paras
  induction paras with
  | nil =>
    intro chunks current _ hch hcur
    exact ⟨hch, hcur⟩
  | cons p ps ih =>
    intro chunks current hw hch hcur
    have hwtail : ∀ q ∈ ps, ∀ x ∈ pySplit q, x.length ≤ W :=
      fun q hq => hw q (List.mem_cons_of_mem p hq)
    simp only [paraLoop]
    by_cases hfit : current.length + p.length ≤ cs
    · rw [if_pos hfit]
      refine ih chunks _ hwtail hch ?_
      calc (strip (current ++ nl2 ++ p)).length ≤ (current ++ nl2 ++ p).length :=
          strip_length_le _
        _ = current.length + 2 + p.length := by simp [nl2]; omega
        _ ≤ cs + 2 := by omega
        _ ≤ max (cs + 2) (max cs W) := le_max_left _ _
    · rw [if_neg hfit]
      have hch1 : ∀ c ∈ (if current = [] then chunks else chunks ++ [current]),
          c.length ≤ cs + max 2 W := by
        intro c hc
        by_cases hcc : current = []
        · rw [if_pos hcc] at hc
          exact hch c hc
        · rw [if_neg hcc] at hc
          rcases List.mem_append.mp hc with h' | h'
          · exact hch c h'
          · rw [List.mem_singleton] at h'
            subst h'
            exact le_trans hcur hMB
      by_cases hover : cs < p.length
      · rw [if_pos hover]
        have hwl := wordLoop_bound cs W (cs + max 2 W)
          (le_trans (le_max_right (cs + 2) (max cs W)) hMB) (pySplit p)
          (if current = [] then chunks else chunks ++ [current]) []
          (fun x hx => hw p (List.mem_cons_self p ps) x hx) (by simp) hch1
        refine ih _ _ hwtail hwl.1 ?_
        by_cases hr : (wordLoop cs (pySplit p)
            (if current = [] then chunks else chunks ++ [current]) []).2 = []
        · rw [if_pos hr]
          exact hcur
        · rw [if_neg hr]
          exact le_trans hwl.2 (le_max_right _ _)
      · rw [if_neg hover]
        refine ih _ p hwtail hch1 ?_
        push_neg at hover
        exact le_trans (le_trans hover (le_max_left cs W)) (le_max_right _ _)

lemma strip_of_no_ws {w : List Char} (h : ∀ c ∈ w, isWS c = false) : strip w = w :=
  strip_eq_self
    (fun c hc => h c (List.mem_of_mem_head? (by rw [hc]; rfl)))
    (fun c hc => h c (List.mem_of_mem_getLast? (by rw [hc]; rfl)))

lemma joinSp_cons_ne_nil {w : List Char} (gs : List (List Char)) (hw : w ≠ []) :
    joinSp (w :: gs) ≠ [] := by
  cases gs with
  | nil => exact hw
  | cons b gs' => simp [joinSp, hw]

lemma joinSp_append_singleton : ∀ (g : List (List Char)) (w : List Char), g ≠ [] →
    joinSp (g ++ [w]) = joinSp g ++ ' ' :: w := by
  intro g
  induction g with
  | nil => intro w h; exact absurd rfl h
  | cons a g' ih =>
    intro w _
    cases g' with
    | nil => rfl
    | cons b g'' =>
      show joinSp (a :: ((b :: g'') ++ [w])) = (a ++ ' ' :: joinSp (b :: g'')) ++ ' ' :: w
      rw [show ((b :: g'') ++ [w]) = b :: (g'' ++ [w]) from rfl]
      rw [show joinSp (a :: b :: (g'' ++ [w])) = a ++ ' ' :: joinSp (b :: (g'' ++ [w]))
        from rfl]
      rw [show (b :: (g'' ++ [w])) = (b :: g'') ++ [w] from rfl, ih w (by simp)]
      simp

lemma joinSp_head_false {g : List (List Char)} (hg : g ≠ [])
    (hall : ∀ w ∈ g, w ≠ [] ∧ ∀ c ∈ w, isWS c = false) :
    ∀ c, (joinSp g).head? = some c → isWS c = false := by
  cases g with
  | nil => exact absurd rfl hg
  | cons w gs =>
    have hw := hall w (List.mem_cons_self w gs)
    intro c hc
    cases gs with
    | nil =>
      have hc' : w.head? = some c := hc
      exact hw.2 c (List.mem_of_mem_head? (by rw [hc']; rfl))
    | cons b gs' =>
      rw [show joinSp (w :: b :: gs') = w ++ ' ' :: joinSp (b :: gs') from rfl,
        head?_append_left _ hw.1] at hc
      exact hw.2 c (List.mem_of_mem_head? (by rw [hc]; rfl))

lemma joinSp_getLast_false {g : List (List Char)} (hg : g ≠ [])
    (hall : ∀ w ∈ g, w ≠ [] ∧ ∀ c ∈ w, isWS c = false) :
    ∀ c, (joinSp g).getLast? = some c → isWS c = false := by
  rcases List.eq_nil_or_concat g with rfl | ⟨g', w, rfl⟩
  · exact absurd rfl hg
  · rw [List.concat_eq_append]
    have hw := hall w (by simp)
    intro c hc
    by_cases hg' : g' = []
    · subst hg'
      rw [List.nil_append] at hc
      have hc' : w.getLast? = some c := hc
      exact hw.2 c (List.mem_of_mem_getLast? (by rw [hc']; rfl))
    · rw [joinSp_append_singleton g' w hg'] at hc
      rw [show joinSp g' ++ ' ' :: w = (joinSp g' ++ [' ']) ++ w by simp] at hc
      rw [List.getLast?_append_of_ne_nil _ hw.1] at hc
      exact hw.2 c (List.mem_of_mem_getLast? (by rw [hc]; rfl))

/-- The word-packing loop splits only at word boundaries: its outputs
(the flushed sub-chunks plus the final `sub`, when non-empty) are
exactly the space-joins of a partition of the word list into consecutive
non-empty groups. -/
lemma wordLoop_groups (cs : ℕ) : ∀ (ws : List (List Char)) (chunks g : List (List Char)),
    (∀ w ∈ g, w ≠ [] ∧ ∀ c ∈ w, isWS c = false) →
    (∀ w ∈ ws, w ≠ [] ∧ ∀ c ∈ w, isWS c = false) →
    ∃ groups : List (List (List Char)),
      groups.flatten = g ++ ws ∧ (∀ gr ∈ groups, gr ≠ []) ∧
      ((wordLoop cs ws chunks (joinSp g)).1 ++
        (if (wordLoop cs ws chunks (joinSp g)).2 = [] then []
         else [(wordLoop cs ws chunks (joinSp g)).2]) = chunks ++ groups.map joinSp) := by
  intro ws
  induction ws with
  | nil =>
    intro chunks g hg _
    cases g with
    | nil =>
      refine ⟨[], by simp, by simp, ?_⟩
      simp [wordLoop, joinSp]
    | cons w gs =>
      have hne := joinSp_cons_ne_nil gs (hg w (List.mem_cons_self w gs)).1
      refine ⟨[w :: gs], by simp, by simp, ?_⟩
      simp [wordLoop, if_neg hne]
  | cons w ws' ih =>
    intro chunks g hg hws
    have hw := hws w (List.mem_cons_self w ws')
    have hws' : ∀ x ∈ ws', x ≠ [] ∧ ∀ c ∈ x, isWS c = false :=
      fun x hx => hws x (List.mem_cons_of_mem w hx)
    have hgw : ∀ x ∈ g ++ [w], x ≠ [] ∧ ∀ c ∈ x, isWS c = false := by
      intro x hx
      rcases List.mem_append.mp hx with h' | h'
      · exact hg x h'
      · rw [List.mem_singleton] at h'
        subst h'
        exact hw
    simp only [wordLoop]
    by_cases hfit : (joinSp g).length + w.length + 1 ≤ cs
    · rw [if_pos hfit]
      have hstep : strip (joinSp g ++ ' ' :: w) = joinSp (g ++ [w]) := by
        cases g with
        | nil =>
          show strip ([] ++ ' ' :: w) = joinSp [w]
          rw [List.nil_append, show (' ' :: w) = [' '] ++ w from rfl,
            strip_append_ws w (by decide), strip_of_no_ws hw.2]
          rfl
        | cons a gs =>
          have hgne : (a :: gs : List (List Char)) ≠ [] := by simp
          have hjne := joinSp_cons_ne_nil gs (hg a (List.mem_cons_self a gs)).1
          rw [joinSp_append_singleton _ w hgne]
          apply strip_eq_self
          · intro c hc
            rw [head?_append_left _ hjne] at hc
            exact joinSp_head_false hgne hg c hc
          · intro c hc
            rw [show joinSp (a :: gs) ++ ' ' :: w = (joinSp (a :: gs) ++ [' ']) ++ w
              by simp] at hc
            rw [List.getLast?_append_of_ne_nil _ hw.1] at hc
            exact hw.2 c (List.mem_of_mem_getLast? (by rw [hc]; rfl))
      rw [hstep]
      obtain ⟨groups, hflat, hne, hout⟩ := ih chunks (g ++ [w]) hgw hws'
      refine ⟨groups, ?_, hne, hout⟩
      rw [hflat]
      simp
    · rw [if_neg hfit]
      by_cases hgg : g = []
      · subst hgg
        rw [show joinSp [] = [] from rfl, if_pos rfl]
        obtain ⟨groups, hflat, hne, hout⟩ := ih chunks [w]
          (by intro x hx; rw [List.mem_singleton] at hx; subst hx; exact hw) hws'
        refine ⟨groups, ?_, hne, ?_⟩
        · rw [hflat]
          rfl
        · rw [show joinSp [w] = w from rfl] at hout
          exact hout
      · have hjne : joinSp g ≠ [] := by
          cases g with
          | nil => exact absurd rfl hgg
          | cons a gs => exact joinSp_cons_ne_nil gs (hg a (List.mem_cons_self a gs)).1
        rw [if_neg hjne]
        obtain ⟨groups, hflat, hne, hout⟩ := ih (chunks ++ [joinSp g]) [w]
          (by intro x hx; rw [List.mem_singleton] at hx; subst hx; exact hw) hws'
        rw [show joinSp [w] = w from rfl] at hout
        refine ⟨g :: groups, ?_, ?_, ?_⟩
        · rw [List.flatten_cons, hflat]
          rfl
        · intro gr hgr
          rcases List.mem_cons.mp hgr with rfl | h'
          · exact hgg
          · exact hne gr h'
        · rw [hout]
          simp

/-- C6 counterexample: for `chunk_size = 2` and input `"a\n\nb\n\nc"`
(every word one character long), the pre-overlap chunk `"a\n\nb"` has
length 5, exceeding `chunk_size` by 3 — more than the length of any word
of the input.  The excess comes from the 2-character `"\n\n"` joiner,
which the claim does not account for. -/
theorem chunk_core_oversize_cex :
    "a\n\nb".toList ∈ chunkCoreChunks 2 "a\n\nb\n\nc".toList ∧
    maxWordLen "a\n\nb\n\nc".toList = 1 ∧
    2 + maxWordLen "a\n\nb\n\nc".toList < "a\n\nb".toList.length := by
  decide

/-- C6 amended: every pre-overlap chunk of `chunk_text` is at most
`chunk_size + max 2 W` long, where `W` is the longest word length in the
input (the paragraph joiner can add 2 characters beyond one word); and
the sub-splitting of an oversized paragraph happens only at word
boundaries — its outputs are space-joins of a partition of the
paragraph's words into consecutive non-empty groups, never breaking
inside a word. -/
theorem chunk_core_size_and_word_boundaries (text : List Char) (cs : ℕ) :
    (∀ c ∈ chunkCoreChunks cs text, c.length ≤ cs + max 2 (maxWordLen text)) ∧
    (∀ p ∈ parasOf text, ∃ groups : List (List (List Char)),
      groups.flatten = pySplit p ∧ (∀ g ∈ groups, g ≠ []) ∧
      ((wordLoop cs (pySplit p) [] []).1 ++
        (if (wordLoop cs (pySplit p) [] []).2 = [] then []
         else [(wordLoop cs (pySplit p) [] []).2]) = groups.map joinSp)) := by
  constructor
  · intro c hc
    have hMB : max (cs + 2) (max cs (maxWordLen text)) ≤ cs + max 2 (maxWordLen text) := by
      apply max_le
      · exact Nat.add_le_add_left (le_max_left 2 _) cs
      · exact max_le (Nat.le_add_right cs _ |>.trans (Nat.add_le_add_left (Nat.zero_le _) cs))
          (le_trans (le_max_right 2 _) (Nat.le_add_left _ cs))
    have hb := paraLoop_bound cs (maxWordLen text) (parasOf text) [] []
      (maxWordLen_bound text) (by simp) (by simp)
    simp only [chunkCoreChunks] at hc
    by_cases hr : (paraLoop cs (parasOf text) [] []).2 = []
    · rw [if_pos hr] at hc
      exact hb.1 c hc
    · rw [if_neg hr] at hc
      rcases List.mem_append.mp hc with h' | h'
      · exact hb.1 c h'
      · rw [List.mem_singleton] at h'
        subst h'
        exact le_trans hb.2 hMB
  · intro p hp
    obtain ⟨groups, hflat, hne, hout⟩ :=
      wordLoop_groups cs (pySplit p) [] [] (by simp) (pySplit_words p)
    exact ⟨groups, by simpa using hflat, hne, by simpa using hout⟩

/-- Witness for C6's amended theorem: input `"aaa bb"` with
`chunk_size = 2` — the oversized single paragraph is split into the
whole words `"aaa"` and `"bb"`. -/
theorem chunk_core_size_and_word_boundaries_witness :
    "aaa".toList.length ≤ 2 + max 2 (maxWordLen "aaa bb".toList) ∧
    (∃ groups : List (List (List Char)),
      groups.flatten = pySplit "aaa bb".toList ∧ (∀ g ∈ groups, g ≠ []) ∧
      ((wordLoop 2 (pySplit "aaa bb".toList) [] []).1 ++
        (if (wordLoop 2 (pySplit "aaa bb".toList) [] []).2 = [] then []
         else [(wordLoop 2 (pySplit "aaa bb".toList) [] []).2]) = groups.map joinSp)) := by
  have h := chunk_core_size_and_word_boundaries "aaa bb".toList 2
  exact ⟨h.1 "aaa".toList (by decide), h.2 "aaa bb".toList (by decide)⟩

end AIRDy
